import Mathlib

/-!
Verification development for the `translator` utility (src/main.rs).

The program scans a text file for marker lines of the form
`|> translator: <language>(`, captures the following lines until the
parenthesis nesting returns to zero, and dispatches the captured code to a
per-language handler.  The definitions below are a shallow embedding of
`extract_blocks` and of the dispatch performed by `execute_code`; string
primitives of Rust (`trim`, `starts_with`, `splitn`, `split`, `lines`) are
modelled explicitly on the character lists underlying Lean strings.
-/

namespace Translator

/-- One step of the parenthesis-depth count of `extract_blocks`:
a character `(` increments the depth, `)` decrements it, anything else
leaves it unchanged. -/
def parenStep (d : Int) (c : Char) : Int :=
  if c = '(' then d + 1 else if c = ')' then d - 1 else d

/-- Depth after scanning every character of one line, starting from `d`
(the `for c in code_line.chars()` loop of `extract_blocks`). -/
def lineDepth (d : Int) (l : String) : Int :=
  l.data.foldl parenStep d

/-- Characters of a string with leading and trailing whitespace removed,
modelling Rust `str::trim`. -/
def trimChars (cs : List Char) : List Char :=
  ((cs.dropWhile Char.isWhitespace).reverse.dropWhile Char.isWhitespace).reverse

/-- Model of Rust `str::trim`. -/
def strTrim (s : String) : String :=
  ⟨trimChars s.data⟩

/-- Character-list core of `str::starts_with`: the second list is a leading
segment of the first. -/
def startsWithChars : List Char → List Char → Bool
  | _, [] => true
  | [], _ :: _ => false
  | c :: cs, p :: ps => c = p && startsWithChars cs ps

/-- Model of Rust `str::starts_with` for string patterns. -/
def strStartsWith (s p : String) : Bool :=
  startsWithChars s.data p.data

/-- Model of Rust `str::splitn(2, c)`: split at the first occurrence of `c`
only, producing one piece when `c` does not occur and two otherwise. -/
def splitn2 (s : String) (c : Char) : List String :=
  match s.data.dropWhile (fun x => x ≠ c) with
  | [] => [s]
  | _ :: rest => [⟨s.data.takeWhile (fun x => x ≠ c)⟩, ⟨rest⟩]

/-- Accumulator-based splitting of a character list at every occurrence of
`c`; the pieces are returned in order and never contain `c`. -/
def splitOnCharAux (c : Char) : List Char → List Char → List (List Char)
  | [], acc => [acc.reverse]
  | x :: xs, acc =>
      if x = c then acc.reverse :: splitOnCharAux c xs []
      else splitOnCharAux c xs (x :: acc)

/-- Model of Rust `str::split(c)`. -/
def splitOnChar (s : String) (c : Char) : List String :=
  (splitOnCharAux c s.data []).map (fun l => (⟨l⟩ : String))

/-- Drop one trailing carriage return, used by the model of `str::lines`. -/
def stripTrailCR (cs : List Char) : List Char :=
  if cs.getLast? = some '\r' then cs.dropLast else cs

/-- Model of Rust `str::lines`: split at every newline, strip a carriage
return from every piece that was terminated by a newline, and drop the
final empty piece produced by a trailing newline. -/
def rustLines (s : String) : List String :=
  let ps := splitOnCharAux '\n' s.data []
  let front := (ps.dropLast).map (fun l => (⟨stripTrailCR l⟩ : String))
  match ps.getLast? with
  | none => []
  | some last => if last = [] then front else front ++ [⟨last⟩]

/-- Language name computed by `extract_blocks` from a trimmed marker line
`t`: the text after the first `:`, trimmed, cut before the first `(`,
trimmed again (`parts[1].trim().split('(').next().unwrap_or("").trim()`). -/
def markerLang (t : String) : String :=
  strTrim ((splitOnChar (strTrim ((splitn2 t ':').getD 1 "")) '(').headD "")

/-- The inner capture loop of `extract_blocks`: while lines remain and the
depth is positive, scan the current line's characters updating the depth,
append the line plus a newline to the code buffer, and advance.  The result
is (code buffer, final depth, remaining lines). -/
def captureLoop (code : String) (d : Int) : List String → String × Int × List String
  | [] => (code, d, [])
  | l :: rest =>
      if 0 < d then captureLoop (code ++ l ++ "\n") (lineDepth d l) rest
      else (code, d, l :: rest)

/-- The outer scanning loop of `extract_blocks`.  A line whose trimmed form
starts with `|> translator:` and yields a non-empty language name opens a
depth-1 capture; the block is pushed when the final depth is exactly 0 and
discarded otherwise.  The second component collects the diagnostic lines
printed when `verbose` is set. -/
def extractLoop (verbose : Bool) : List String → List (String × String) × List String
  | [] => ([], [])
  | l :: rest =>
      if strStartsWith (strTrim l) "|> translator:" then
        if (splitn2 (strTrim l) ':').length = 2 then
          if markerLang (strTrim l) ≠ "" then
            if (captureLoop "" 1 rest).2.1 = 0 then
              ((markerLang (strTrim l), strTrim (captureLoop "" 1 rest).1) ::
                  (extractLoop verbose (captureLoop "" 1 rest).2.2).1,
               (if verbose then ["Extracted " ++ markerLang (strTrim l) ++ " block"] else []) ++
                  (extractLoop verbose (captureLoop "" 1 rest).2.2).2)
            else
              ((extractLoop verbose (captureLoop "" 1 rest).2.2).1,
               (if verbose then ["Unclosed block for " ++ markerLang (strTrim l)] else []) ++
                  (extractLoop verbose (captureLoop "" 1 rest).2.2).2)
          else extractLoop verbose rest
        else extractLoop verbose rest
      else extractLoop verbose rest
termination_by ls => ls.length
decreasing_by
  all_goals
    have key : ∀ (m : List String) (c : String) (e : Int),
        ((captureLoop c e m).2.2).length ≤ m.length := by
      intro m
      induction m with
      | nil => intro c e; simp [captureLoop]
      | cons x xs ih =>
          intro c e
          by_cases h : 0 < e
          · simp only [captureLoop, if_pos h]
            exact Nat.le_trans (ih _ _) (Nat.le_succ _)
          · simp [captureLoop, h]
    simp only [List.length_cons]
    have hk := key rest "" 1
    omega

/-- Model of `extract_blocks`: the vector of (language, code) pairs returned
for the given file content. -/
def extract_blocks (content : String) (verbose : Bool) : List (String × String) :=
  (extractLoop verbose (rustLines content)).1

/-- Concatenation of a list of lines, each followed by a newline, in the
order the capture loop appends them to its code buffer. -/
def joinLines : List String → String
  | [] => ""
  | l :: rest => l ++ "\n" ++ joinLines rest

/-- Fuel-indexed structural twin of `extractLoop`, used to evaluate the
scanner inside the kernel; `extractLoop_eq_fuel` below shows the two agree
whenever the fuel dominates the number of lines. -/
def extractLoopFuel (verbose : Bool) : Nat → List String → List (String × String) × List String
  | _, [] => ([], [])
  | 0, _ :: _ => ([], [])
  | n + 1, l :: rest =>
      if strStartsWith (strTrim l) "|> translator:" then
        if (splitn2 (strTrim l) ':').length = 2 then
          if markerLang (strTrim l) ≠ "" then
            if (captureLoop "" 1 rest).2.1 = 0 then
              ((markerLang (strTrim l), strTrim (captureLoop "" 1 rest).1) ::
                  (extractLoopFuel verbose n (captureLoop "" 1 rest).2.2).1,
               (if verbose then ["Extracted " ++ markerLang (strTrim l) ++ " block"] else []) ++
                  (extractLoopFuel verbose n (captureLoop "" 1 rest).2.2).2)
            else
              ((extractLoopFuel verbose n (captureLoop "" 1 rest).2.2).1,
               (if verbose then ["Unclosed block for " ++ markerLang (strTrim l)] else []) ++
                  (extractLoopFuel verbose n (captureLoop "" 1 rest).2.2).2)
          else extractLoopFuel verbose n rest
        else extractLoopFuel verbose n rest
      else extractLoopFuel verbose n rest

/-- Action selected by `execute_code`: which language handler would be
invoked for the block, or the immediate failure produced for an unsupported
language token. -/
inductive ExecStep
  | runRust (code : String)
  | runJava (code : String)
  | runPython (code : String)
  | runGo (code : String)
  | unsupported (msg : String)
deriving DecidableEq

/-- Dispatch performed by `execute_code` on the language token
(`match lang.as_str()`): the four registered languages go to their
handlers, everything else fails at once with `Unsupported language: _`. -/
def execute_code (lang code : String) : ExecStep :=
  if lang = "rust" then .runRust code
  else if lang = "java" then .runJava code
  else if lang = "python" then .runPython code
  else if lang = "go" then .runGo code
  else .unsupported ("Unsupported language: " ++ lang)

/-- Scanner reachability: `Reaches ls bs suf` states that the outer loop of
`extract_blocks`, started on the lines `ls`, eventually has exactly the
lines `suf` left to scan, having emitted precisely the blocks `bs` so far.
Each constructor mirrors one branch of `extractLoop`. -/
inductive Reaches : List String → List (String × String) → List String → Prop
  | refl (ls : List String) : Reaches ls [] ls
  | skip (l : String) (rest : List String) (bs : List (String × String))
      (suf : List String)
      (h : strStartsWith (strTrim l) "|> translator:" = false ∨
        (splitn2 (strTrim l) ':').length ≠ 2 ∨ markerLang (strTrim l) = "")
      (hr : Reaches rest bs suf) : Reaches (l :: rest) bs suf
  | closed (l : String) (rest : List String) (bs : List (String × String))
      (suf : List String)
      (h1 : strStartsWith (strTrim l) "|> translator:" = true)
      (h2 : (splitn2 (strTrim l) ':').length = 2)
      (h3 : markerLang (strTrim l) ≠ "")
      (h4 : (captureLoop "" 1 rest).2.1 = 0)
      (hr : Reaches (captureLoop "" 1 rest).2.2 bs suf) :
      Reaches (l :: rest)
        ((markerLang (strTrim l), strTrim (captureLoop "" 1 rest).1) :: bs) suf
  | dropped (l : String) (rest : List String) (bs : List (String × String))
      (suf : List String)
      (h1 : strStartsWith (strTrim l) "|> translator:" = true)
      (h2 : (splitn2 (strTrim l) ':').length = 2)
      (h3 : markerLang (strTrim l) ≠ "")
      (h4 : (captureLoop "" 1 rest).2.1 ≠ 0)
      (hr : Reaches (captureLoop "" 1 rest).2.2 bs suf) :
      Reaches (l :: rest) bs suf

/-! ### Basic lemmas about the capture loop -/

/-- With a non-positive depth the capture loop stops at once. -/
theorem captureLoop_of_nonpos (code : String) (d : Int) (ls : List String)
    (h : ¬ 0 < d) : captureLoop code d ls = (code, d, ls) := by
  cases ls with
  | nil => rfl
  | cons l rest => simp [captureLoop, h]

/-- The capture loop never leaves more lines behind than it was given. -/
theorem captureLoop_leftover_length (code : String) (d : Int) (ls : List String) :
    ((captureLoop code d ls).2.2).length ≤ ls.length := by
  induction ls generalizing code d with
  | nil => simp [captureLoop]
  | cons l rest ih =>
      by_cases h : 0 < d
      · simp only [captureLoop, if_pos h]
        exact Nat.le_trans (ih _ _) (Nat.le_succ _)
      · simp [captureLoop, h]

/-- A capture that ends with positive depth has consumed the whole input:
the loop only stops early when the depth is no longer positive. -/
theorem captureLoop_leftover_nil (code : String) (d : Int) (ls : List String)
    (h : 0 < (captureLoop code d ls).2.1) : (captureLoop code d ls).2.2 = [] := by
  induction ls generalizing code d with
  | nil => rfl
  | cons l rest ih =>
      by_cases hd : 0 < d
      · simp only [captureLoop, if_pos hd] at h ⊢
        exact ih _ _ h
      · rw [captureLoop_of_nonpos _ _ _ hd] at h
        exact absurd h hd

/-- A capture that stops with non-positive depth is unaffected by lines
appended after the input it was given. -/
theorem captureLoop_append (code : String) (d : Int) (ls suf : List String)
    (h : (captureLoop code d ls).2.1 ≤ 0) :
    captureLoop code d (ls ++ suf) =
      ((captureLoop code d ls).1, (captureLoop code d ls).2.1,
        (captureLoop code d ls).2.2 ++ suf) := by
  induction ls generalizing code d with
  | nil =>
      simp only [captureLoop] at h
      simp only [List.nil_append, captureLoop]
      rw [captureLoop_of_nonpos _ _ _ (by omega)]
  | cons l rest ih =>
      by_cases hd : 0 < d
      · simp only [List.cons_append, captureLoop, if_pos hd] at h ⊢
        exact ih _ _ h
      · rw [captureLoop_of_nonpos _ _ _ hd, captureLoop_of_nonpos _ _ _ hd]

/-! ### String appending facts used by the capture-buffer lemmas -/

theorem strData_append (a b : String) : (a ++ b).data = a.data ++ b.data := by
  cases a; cases b; rfl

theorem strAppend_empty (s : String) : s ++ "" = s := by
  apply String.ext
  simp [strData_append]

theorem strAppend_assoc (a b c : String) : a ++ b ++ c = a ++ (b ++ c) := by
  apply String.ext
  simp [strData_append]

/-- The capture loop consumes a prefix of its input, appending exactly the
consumed lines — each followed by a newline — to the code buffer, and
leaves exactly the rest. -/
theorem captureLoop_acc (ls : List String) : ∀ (d : Int) (code : String),
    ∃ n, n ≤ ls.length ∧
      (captureLoop code d ls).1 = code ++ joinLines (ls.take n) ∧
      (captureLoop code d ls).2.2 = ls.drop n := by
  induction ls with
  | nil =>
      intro d code
      exact ⟨0, Nat.le_refl _,
        by simp [captureLoop, joinLines, strAppend_empty],
        by simp [captureLoop]⟩
  | cons l rest ih =>
      intro d code
      by_cases hd : 0 < d
      · obtain ⟨n, hn, hc, hl⟩ := ih (lineDepth d l) (code ++ l ++ "\n")
        refine ⟨n + 1, by simpa using hn, ?_, ?_⟩
        · simp only [captureLoop, if_pos hd, List.take_succ_cons, joinLines]
          rw [hc]
          simp [strAppend_assoc]
        · simp only [captureLoop, if_pos hd, List.drop_succ_cons]
          exact hl
      · refine ⟨0, Nat.zero_le _, ?_, ?_⟩
        · rw [captureLoop_of_nonpos _ _ _ hd]
          simp [joinLines, strAppend_empty]
        · rw [captureLoop_of_nonpos _ _ _ hd]
          rfl

/-! ### The scanner agrees with its fuel-indexed twin -/

theorem extractLoop_eq_fuel (v : Bool) :
    ∀ (n : Nat) (ls : List String), ls.length ≤ n →
      extractLoop v ls = extractLoopFuel v n ls := by
  intro n
  induction n with
  | zero =>
      intro ls h
      have : ls = [] := List.length_eq_zero.mp (Nat.le_zero.mp h)
      subst this
      simp [extractLoop, extractLoopFuel]
  | succ n ih =>
      intro ls h
      match ls with
      | [] => simp [extractLoop, extractLoopFuel]
      | l :: rest =>
          have hrest : rest.length ≤ n := by
            simp only [List.length_cons] at h
            omega
          have hcap : ((captureLoop "" 1 rest).2.2).length ≤ n :=
            Nat.le_trans (captureLoop_leftover_length "" 1 rest) hrest
          by_cases h1 : strStartsWith (strTrim l) "|> translator:"
          · by_cases h2 : (splitn2 (strTrim l) ':').length = 2
            · by_cases h3 : markerLang (strTrim l) = ""
              · simp only [extractLoop, extractLoopFuel, h1, h2, h3, if_pos, if_neg,
                  ite_true, ite_false, not_true, not_false_iff, ne_eq]
                simp [ih rest hrest]
              · by_cases h4 : (captureLoop "" 1 rest).2.1 = 0
                · simp only [extractLoop, extractLoopFuel, h1, h2, h3, h4, if_pos,
                    ite_true, ite_false, not_false_iff, ne_eq]
                  simp [ih _ hcap]
                · simp only [extractLoop, extractLoopFuel, h1, h2, h3, h4, if_pos,
                    ite_true, ite_false, not_false_iff, ne_eq]
                  simp [h4, ih _ hcap]
            · simp only [extractLoop, extractLoopFuel, h1, h2, ite_true, ite_false]
              simp [h2, ih rest hrest]
          · simp only [extractLoop, extractLoopFuel]
            simp [h1, ih rest hrest]

/-! ### Marker-parsing lemmas -/

/-- Every character of the pattern occurs in a string that starts with it. -/
theorem mem_of_startsWithChars : ∀ (ps cs : List Char),
    startsWithChars cs ps = true → ∀ a ∈ ps, a ∈ cs := by
  intro ps
  induction ps with
  | nil =>
      intro cs _ a ha
      simp at ha
  | cons p pt ih =>
      intro cs h a ha
      cases cs with
      | nil => simp [startsWithChars] at h
      | cons c ct =>
          simp only [startsWithChars, Bool.and_eq_true, decide_eq_true_eq] at h
          rcases List.mem_cons.mp ha with rfl | hmem
          · rw [← h.1]
            exact List.mem_cons_self _ _
          · exact List.mem_cons_of_mem _ (ih ct h.2 a hmem)

/-- Splitting at a character that occurs in the string yields two pieces. -/
theorem splitn2_length_of_mem (s : String) (c : Char) (h : c ∈ s.data) :
    (splitn2 s c).length = 2 := by
  have hne : s.data.dropWhile (fun x => x ≠ c) ≠ [] := by
    intro hnil
    have hall := List.dropWhile_eq_nil_iff.mp hnil
    have := hall c h
    simp at this
  rcases hd : s.data.dropWhile (fun x => x ≠ c) with _ | ⟨a, t⟩
  · exact absurd hd hne
  · unfold splitn2
    rw [hd]
    rfl

/-- A line whose trimmed form starts with the marker prefix always splits
into exactly two pieces at `:` (the colon of the marker is present). -/
theorem marker_splitn2_length (t : String)
    (h : strStartsWith t "|> translator:" = true) :
    (splitn2 t ':').length = 2 := by
  apply splitn2_length_of_mem
  have hc : (':' : Char) ∈ "|> translator:".data := by decide
  exact mem_of_startsWithChars _ _ h ':' hc

/-- Characters of the second `splitn2` piece come from the original string. -/
theorem mem_of_mem_splitn2_snd (s : String) (c : Char) {a : Char}
    (h : a ∈ ((splitn2 s c).getD 1 "").data) : a ∈ s.data := by
  unfold splitn2 at h
  rcases hd : s.data.dropWhile (fun x => x ≠ c) with _ | ⟨x, rest⟩
  · rw [hd] at h
    simp at h
  · rw [hd] at h
    simp only [List.getD_cons_succ, List.getD_cons_zero] at h
    have hmem : a ∈ x :: rest := List.mem_cons_of_mem _ h
    rw [← hd] at hmem
    exact (List.dropWhile_suffix _).sublist.subset hmem

theorem trimChars_eq_rdrop (cs : List Char) :
    trimChars cs =
      List.rdropWhile Char.isWhitespace (List.dropWhile Char.isWhitespace cs) := rfl

/-- A leading segment of a list with no leading `p`-elements has none either. -/
theorem dropWhile_eq_self_of_append (p : Char → Bool) (u t l : List Char)
    (ht : u ++ t = l) (h : List.dropWhile p l = l) : List.dropWhile p u = u := by
  cases u with
  | nil => rfl
  | cons x xs =>
      have hx : p x = false := by
        cases hpx : p x
        · rfl
        · exfalso
          rw [← ht] at h
          simp only [List.cons_append, List.dropWhile_cons, hpx, if_pos] at h
          have hlen := congrArg List.length h
          rw [List.length_cons] at hlen
          have hle : (List.dropWhile p (xs ++ t)).length ≤ (xs ++ t).length :=
            (List.dropWhile_sublist p).length_le
          omega
      simp [List.dropWhile_cons, hx]

/-- Dropping trailing `p`-elements cannot create leading ones. -/
theorem dropWhile_rdropWhile (p : Char → Bool) (l : List Char)
    (h : List.dropWhile p l = l) :
    List.dropWhile p (List.rdropWhile p l) = List.rdropWhile p l := by
  obtain ⟨t, ht⟩ := List.rdropWhile_prefix p l
  exact dropWhile_eq_self_of_append p _ t l ht h

theorem trimChars_idem (cs : List Char) : trimChars (trimChars cs) = trimChars cs := by
  rw [trimChars_eq_rdrop, trimChars_eq_rdrop]
  rw [dropWhile_rdropWhile _ _ (List.dropWhile_idempotent _ _)]
  exact List.rdropWhile_idempotent _ _

theorem strMk_data (s : String) : (⟨s.data⟩ : String) = s := rfl

theorem strTrim_idem (s : String) : strTrim (strTrim s) = strTrim s := by
  apply String.ext
  exact trimChars_idem s.data

theorem mem_of_mem_trimChars {a : Char} {cs : List Char}
    (h : a ∈ trimChars cs) : a ∈ cs := by
  rw [trimChars_eq_rdrop] at h
  have h1 : a ∈ List.dropWhile Char.isWhitespace cs :=
    ( List.rdropWhile_prefix _ _).sublist.subset h
  exact (List.dropWhile_suffix _).sublist.subset h1

/-- Splitting at a character that does not occur returns the whole list. -/
theorem splitOnCharAux_of_not_mem (c : Char) :
    ∀ (cs acc : List Char), c ∉ cs →
      splitOnCharAux c cs acc = [acc.reverse ++ cs] := by
  intro cs
  induction cs with
  | nil =>
      intro acc _
      simp [splitOnCharAux]
  | cons x xs ih =>
      intro acc h
      have hx : ¬ x = c := fun he => h (by simp [he])
      simp only [splitOnCharAux, if_neg hx]
      rw [ih (x :: acc) (fun hc => h (List.mem_cons_of_mem _ hc))]
      simp

/-- On a marker line containing no `(` at all, the detected language is the
entire text after the first colon, trimmed. -/
theorem markerLang_no_paren (t : String) (h : '(' ∉ t.data) :
    markerLang t = strTrim ((splitn2 t ':').getD 1 "") := by
  have hnp : '(' ∉ (strTrim ((splitn2 t ':').getD 1 "")).data := fun hm =>
    h (mem_of_mem_splitn2_snd t ':' (mem_of_mem_trimChars hm))
  unfold markerLang splitOnChar
  rw [splitOnCharAux_of_not_mem '(' _ [] hnp]
  simp only [List.reverse_nil, List.nil_append, List.map_cons, List.map_nil,
    List.headD_cons, strMk_data]
  exact strTrim_idem _

/-! ### Line-granularity of the depth check -/

/-- The capture loop's final depth is zero exactly when the running depth,
updated character by character but inspected only at the end of each
captured line, is exactly zero at the end of some line — all lines before
that one ending with positive depth. -/
theorem captureLoop_depth_zero_iff (ls : List String) :
    ∀ (d : Int) (code : String), 0 < d →
      ((captureLoop code d ls).2.1 = 0 ↔
        ∃ k, k < ls.length ∧ (ls.take (k + 1)).foldl lineDepth d = 0 ∧
          ∀ j, j < k → 0 < ((ls.take (j + 1)).foldl lineDepth d)) := by
  induction ls with
  | nil =>
      intro d code hd
      constructor
      · intro h
        simp [captureLoop] at h
        omega
      · rintro ⟨k, hk, _, _⟩
        simp at hk
  | cons l rest ih =>
      intro d code hd
      simp only [captureLoop, if_pos hd]
      rcases lt_trichotomy (lineDepth d l) 0 with hneg | hzero | hpos
      · rw [captureLoop_of_nonpos _ _ _ (by omega)]
        constructor
        · intro h
          simp at h
          omega
        · rintro ⟨k, _, hz, hp⟩
          exfalso
          cases k with
          | zero =>
              simp [List.foldl_cons] at hz
              omega
          | succ k =>
              have h0 := hp 0 (Nat.succ_pos k)
              simp [List.foldl_cons] at h0
              omega
      · rw [captureLoop_of_nonpos _ _ _ (by omega)]
        constructor
        · intro _
          refine ⟨0, by simp, by simpa [List.foldl_cons] using hzero, ?_⟩
          intro j hj
          omega
        · intro _
          simpa using hzero
      · rw [ih (lineDepth d l) (code ++ l ++ "\n") hpos]
        constructor
        · rintro ⟨k, hk, hz, hp⟩
          refine ⟨k + 1, by simpa using Nat.succ_lt_succ hk, ?_, ?_⟩
          · simpa [List.take_succ_cons, List.foldl_cons] using hz
          · intro j hj
            cases j with
            | zero => simpa [List.foldl_cons] using hpos
            | succ j =>
                have := hp j (by omega)
                simpa [List.take_succ_cons, List.foldl_cons] using this
        · rintro ⟨k, hk, hz, hp⟩
          cases k with
          | zero =>
              exfalso
              simp [List.foldl_cons] at hz
              omega
          | succ k =>
              refine ⟨k, by simpa using hk, ?_, ?_⟩
              · simpa [List.take_succ_cons, List.foldl_cons] using hz
              · intro j hj
                have := hp (j + 1) (by omega)
                simpa [List.take_succ_cons, List.foldl_cons] using this

/-! ### Scanner-level lemmas -/

/-- An input with no marker line extracts nothing and logs nothing. -/
theorem extractLoop_no_marker (v : Bool) (ls : List String)
    (h : ∀ l ∈ ls, strStartsWith (strTrim l) "|> translator:" = false) :
    extractLoop v ls = ([], []) := by
  induction ls with
  | nil => simp [extractLoop]
  | cons l rest ih =>
      have hl := h l (List.mem_cons_self l rest)
      have ht := ih (fun x hx => h x (List.mem_cons_of_mem _ hx))
      simp [extractLoop, hl, ht]

/-- The blocks computed by the fuel-indexed scanner do not depend on the
verbosity flag (only the diagnostic log does). -/
theorem extractLoopFuel_fst_indep (v1 v2 : Bool) :
    ∀ (n : Nat) (ls : List String),
      (extractLoopFuel v1 n ls).1 = (extractLoopFuel v2 n ls).1 := by
  intro n
  induction n with
  | zero =>
      intro ls
      cases ls <;> rfl
  | succ n ih =>
      intro ls
      cases ls with
      | nil => rfl
      | cons l rest =>
          by_cases h1 : strStartsWith (strTrim l) "|> translator:"
          · by_cases h2 : (splitn2 (strTrim l) ':').length = 2
            · by_cases h3 : markerLang (strTrim l) = ""
              · simp [extractLoopFuel, h1, h2, h3, ih]
              · by_cases h4 : (captureLoop "" 1 rest).2.1 = 0
                · simp [extractLoopFuel, h1, h2, h3, h4, ih]
                · simp [extractLoopFuel, h1, h2, h3, h4, ih]
            · simp [extractLoopFuel, h1, h2, ih]
          · simp [extractLoopFuel, h1, ih]

/-- Reachability is sound: if the scanner reaches `suf` having emitted `bs`,
the blocks of the whole input are `bs` followed by the blocks of `suf`. -/
theorem reaches_blocks {ls : List String} {bs : List (String × String)}
    {suf : List String} (h : Reaches ls bs suf) (v : Bool) :
    (extractLoop v ls).1 = bs ++ (extractLoop v suf).1 := by
  induction h with
  | refl t => simp
  | skip l rest bs suf hc hr ih =>
      rcases hc with h1 | h2 | h3
      · simp [extractLoop, h1, ih]
      · by_cases h1 : strStartsWith (strTrim l) "|> translator:"
        · simp [extractLoop, h1, h2, ih]
        · simp [extractLoop, h1, ih]
      · by_cases h1 : strStartsWith (strTrim l) "|> translator:"
        · by_cases h2 : (splitn2 (strTrim l) ':').length = 2
          · simp [extractLoop, h1, h2, h3, ih]
          · simp [extractLoop, h1, h2, ih]
        · simp [extractLoop, h1, ih]
  | closed l rest bs suf h1 h2 h3 h4 hr ih =>
      simp [extractLoop, h1, h2, h3, h4, ih]
  | dropped l rest bs suf h1 h2 h3 h4 hr ih =>
      simp [extractLoop, h1, h2, h3, h4, ih]

/-! ### Evaluation helpers -/

theorem strEmpty_append (s : String) : "" ++ s = s := by
  cases s
  rfl

/-- Concrete runs of `extract_blocks` are evaluated through the structural
fuel-indexed twin of the scanner. -/
theorem extract_blocks_eval (content : String) (v : Bool) :
    extract_blocks content v =
      (extractLoopFuel v (rustLines content).length (rustLines content)).1 := by
  unfold extract_blocks
  rw [extractLoop_eq_fuel v (rustLines content).length _ (Nat.le_refl _)]

/-! ### Claim theorems -/

/-- C1 (counterexample): on the input `|> translator: python(` /
`print("hi")` / `)`, the extractor does not return a block whose code is
exactly `print("hi")`: every scanned line — including the closing `)` line —
is appended to the code buffer before the depth check. -/
theorem c1_counterexample :
    extract_blocks "|> translator: python(\nprint(\"hi\")\n)" false ≠
      [("python", "print(\"hi\")")] := by
  rw [extract_blocks_eval]
  decide

/-- C1 (amended): for the input `|> translator: python(` / `print("hi")` /
`)`, the extractor returns exactly one block with language `python` and code
`print("hi")\n)` — the closing-parenthesis line is part of the captured
code, since each scanned line is appended before the depth is checked. -/
theorem c1_amended : ∀ v : Bool,
    extract_blocks "|> translator: python(\nprint(\"hi\")\n)" v =
      [("python", "print(\"hi\")\n)")] := by
  intro v
  rw [extract_blocks_eval]
  cases v <;> decide

/-- C2 (counterexample): for the marker followed by the single line `))`,
the cumulative parenthesis count over the captured characters returns to
exactly zero (after the first `)`), yet no block is emitted: the depth is
inspected only at the end of each line, where it has already reached -1. -/
theorem c2_counterexample :
    rustLines "|> translator: python(\n))" = ["|> translator: python(", "))"] ∧
    (0 ∈ List.scanl parenStep 1 (captureLoop "" 1 ["))"]).1.data) ∧
    extract_blocks "|> translator: python(\n))" false = [] := by
  refine ⟨by decide, by decide, ?_⟩
  rw [extract_blocks_eval]
  decide

/-- C2 (amended): after a marker line with a non-empty language name, every
subsequent line is appended verbatim plus a newline to the code buffer
regardless of depth; the depth is updated on each `(` and `)` character but
inspected only at the end of each captured line, and the block is closed
and emitted (captured text trimmed, under the detected language) exactly
when the running depth equals 0 at the end of some captured line with all
earlier line-end depths positive. -/
theorem c2_amended (v : Bool) (m : String) (ls : List String)
    (h1 : strStartsWith (strTrim m) "|> translator:" = true)
    (h2 : markerLang (strTrim m) ≠ "") :
    ((extractLoop v (m :: ls)).1 =
      if (captureLoop "" 1 ls).2.1 = 0 then
        (markerLang (strTrim m), strTrim (captureLoop "" 1 ls).1) ::
          (extractLoop v (captureLoop "" 1 ls).2.2).1
      else (extractLoop v (captureLoop "" 1 ls).2.2).1) ∧
    ((captureLoop "" 1 ls).2.1 = 0 ↔
      ∃ k, k < ls.length ∧ (ls.take (k + 1)).foldl lineDepth 1 = 0 ∧
        ∀ j, j < k → 0 < ((ls.take (j + 1)).foldl lineDepth 1)) ∧
    (∃ n, n ≤ ls.length ∧ (captureLoop "" 1 ls).1 = joinLines (ls.take n) ∧
      (captureLoop "" 1 ls).2.2 = ls.drop n) := by
  refine ⟨?_, captureLoop_depth_zero_iff ls 1 "" (by omega), ?_⟩
  · have hlen := marker_splitn2_length (strTrim m) h1
    by_cases h4 : (captureLoop "" 1 ls).2.1 = 0
    · simp [extractLoop, h1, hlen, h2, h4]
    · simp [extractLoop, h1, hlen, h2, h4]
  · obtain ⟨n, hn, hc, hl⟩ := captureLoop_acc ls 1 ""
    refine ⟨n, hn, ?_, hl⟩
    rw [hc]
    exact strEmpty_append _

theorem c2_amended_witness :
    (strStartsWith (strTrim "|> translator: python(") "|> translator:" = true) ∧
      markerLang (strTrim "|> translator: python(") ≠ "" ∧
      (captureLoop "" 1 [")"]).2.1 = 0 :=
  ⟨by decide, by decide,
    ((c2_amended false "|> translator: python(" [")"] (by decide) (by decide)).2.1).mpr
      ⟨0, by decide, by decide, fun j hj => absurd hj (Nat.not_lt_zero j)⟩⟩

/-- C3: for every language token other than `rust`, `java`, `python`, `go`,
the dispatch of `execute_code` selects no language handler and fails at once
with the message `Unsupported language: <token>`. -/
theorem c3_unsupported_language (lang code : String)
    (h1 : lang ≠ "rust") (h2 : lang ≠ "java") (h3 : lang ≠ "python")
    (h4 : lang ≠ "go") :
    execute_code lang code =
      ExecStep.unsupported ("Unsupported language: " ++ lang) := by
  simp [execute_code, h1, h2, h3, h4]

theorem c3_unsupported_language_witness :
    ("ruby" : String) ≠ "rust" ∧ ("ruby" : String) ≠ "java" ∧
      ("ruby" : String) ≠ "python" ∧ ("ruby" : String) ≠ "go" ∧
      execute_code "ruby" "puts 1" =
        ExecStep.unsupported "Unsupported language: ruby" :=
  ⟨by decide, by decide, by decide, by decide,
    (c3_unsupported_language "ruby" "puts 1" (by decide) (by decide) (by decide)
      (by decide)).trans (by decide)⟩

/-- C4: when the scanner reaches a marker line that opens a capture and the
depth is still positive once the input is exhausted, no block is emitted for
that marker (it is silently discarded) and the blocks emitted for the
earlier markers are returned unchanged. -/
theorem c4_unclosed_dropped (v : Bool) (L : List String)
    (bs : List (String × String)) (m : String) (ls : List String)
    (hr : Reaches L bs (m :: ls))
    (h1 : strStartsWith (strTrim m) "|> translator:" = true)
    (h2 : markerLang (strTrim m) ≠ "")
    (h3 : 0 < (captureLoop "" 1 ls).2.1) :
    (extractLoop v L).1 = bs := by
  rw [reaches_blocks hr v]
  have hlen := marker_splitn2_length (strTrim m) h1
  have hnil := captureLoop_leftover_nil "" 1 ls h3
  have hne : ¬ (captureLoop "" 1 ls).2.1 = 0 := by omega
  simp [extractLoop, h1, hlen, h2, hne, hnil]

theorem c4_unclosed_dropped_witness :
    (strStartsWith (strTrim "|> translator: go(") "|> translator:" = true) ∧
      markerLang (strTrim "|> translator: go(") ≠ "" ∧
      0 < (captureLoop "" 1 ["x"]).2.1 ∧
      (extractLoop false
        ["|> translator: python(", ")", "|> translator: go(", "x"]).1 =
          [("python", ")")] := by
  refine ⟨by decide, by decide, by decide, ?_⟩
  have hr : Reaches ["|> translator: python(", ")", "|> translator: go(", "x"]
      [("python", ")")] ["|> translator: go(", "x"] := by
    exact Reaches.closed "|> translator: python(" [")", "|> translator: go(", "x"]
      [] ["|> translator: go(", "x"] (by decide) (by decide) (by decide) (by decide)
      (Reaches.refl _)
  exact c4_unclosed_dropped false _ [("python", ")")] "|> translator: go(" ["x"]
    hr (by decide) (by decide) (by decide)

/-- C5: an input none of whose lines has a trimmed form starting with
`|> translator:` extracts no blocks at all. -/
theorem c5_no_marker_no_blocks (content : String) (v : Bool)
    (h : ∀ l ∈ rustLines content,
      strStartsWith (strTrim l) "|> translator:" = false) :
    extract_blocks content v = [] := by
  unfold extract_blocks
  rw [extractLoop_no_marker v _ h]

theorem c5_no_marker_no_blocks_witness :
    (∀ l ∈ rustLines "hello world\nno markers here\n(just parens)",
      strStartsWith (strTrim l) "|> translator:" = false) ∧
    extract_blocks "hello world\nno markers here\n(just parens)" false = [] :=
  ⟨by decide, c5_no_marker_no_blocks _ false (by decide)⟩

/-- C6: two sequential well-formed marker blocks of different languages are
extracted as two blocks in file order, each independently carrying its own
language and code; extraction is a pure function of the lines. -/
theorem c6_two_blocks_in_order (v : Bool) (a b : String) (ls1 ls2 : List String)
    (ha1 : strStartsWith (strTrim a) "|> translator:" = true)
    (ha2 : markerLang (strTrim a) ≠ "")
    (hb1 : strStartsWith (strTrim b) "|> translator:" = true)
    (hb2 : markerLang (strTrim b) ≠ "")
    (hc1 : (captureLoop "" 1 ls1).2.1 = 0)
    (hl1 : (captureLoop "" 1 ls1).2.2 = [])
    (hc2 : (captureLoop "" 1 ls2).2.1 = 0)
    (hl2 : (captureLoop "" 1 ls2).2.2 = [])
    (hlang : markerLang (strTrim a) ≠ markerLang (strTrim b)) :
    (extractLoop v (a :: (ls1 ++ b :: ls2))).1 =
      [(markerLang (strTrim a), strTrim (captureLoop "" 1 ls1).1),
       (markerLang (strTrim b), strTrim (captureLoop "" 1 ls2).1)] := by
  have hA := captureLoop_append "" 1 ls1 (b :: ls2) (le_of_eq hc1)
  have hla := marker_splitn2_length (strTrim a) ha1
  have hlb := marker_splitn2_length (strTrim b) hb1
  have hd0 : (captureLoop "" 1 (ls1 ++ b :: ls2)).2.1 = 0 := by
    rw [hA]
    exact hc1
  have hlv : (captureLoop "" 1 (ls1 ++ b :: ls2)).2.2 = b :: ls2 := by
    rw [hA]
    simp [hl1]
  have hcd : (captureLoop "" 1 (ls1 ++ b :: ls2)).1 = (captureLoop "" 1 ls1).1 := by
    rw [hA]
  simp [extractLoop, ha1, hla, ha2, hd0, hlv, hcd, hb1, hlb, hb2, hc2, hl2]

theorem c6_two_blocks_in_order_witness :
    (strStartsWith (strTrim "|> translator: python(") "|> translator:" = true) ∧
      markerLang (strTrim "|> translator: python(") ≠ "" ∧
      (strStartsWith (strTrim "|> translator: go(") "|> translator:" = true) ∧
      markerLang (strTrim "|> translator: go(") ≠ "" ∧
      (captureLoop "" 1 [")"]).2.1 = 0 ∧
      (captureLoop "" 1 [")"]).2.2 = [] ∧
      markerLang (strTrim "|> translator: python(") ≠
        markerLang (strTrim "|> translator: go(") ∧
      (extractLoop false
        ["|> translator: python(", ")", "|> translator: go(", ")"]).1 =
          [("python", ")"), ("go", ")")] := by
  refine ⟨by decide, by decide, by decide, by decide, by decide, by decide,
    by decide, ?_⟩
  have h := c6_two_blocks_in_order false "|> translator: python("
    "|> translator: go(" [")"] [")"] (by decide) (by decide) (by decide)
    (by decide) (by decide) (by decide) (by decide) (by decide) (by decide)
  simpa using h

/-- C7: the verbose flag never changes extraction outcomes — for every input
text the blocks returned with `verbose = true` equal those returned with
`verbose = false` (only the diagnostic log differs). -/
theorem c7_verbose_independent (content : String) :
    extract_blocks content true = extract_blocks content false := by
  unfold extract_blocks
  rw [extractLoop_eq_fuel true (rustLines content).length _ (Nat.le_refl _),
    extractLoop_eq_fuel false (rustLines content).length _ (Nat.le_refl _)]
  exact extractLoopFuel_fst_indep true false _ _

/-- C8: a line whose trimmed form starts with `|> translator:` but whose
computed language name is empty is not treated as a marker: no capture
begins, no block is emitted for it, and scanning continues from the next
line. -/
theorem c8_empty_language_skipped (v : Bool) (l : String) (rest : List String)
    (h1 : strStartsWith (strTrim l) "|> translator:" = true)
    (h2 : markerLang (strTrim l) = "") :
    extractLoop v (l :: rest) = extractLoop v rest := by
  have hlen := marker_splitn2_length (strTrim l) h1
  simp [extractLoop, h1, hlen, h2]

theorem c8_empty_language_skipped_witness :
    (strStartsWith (strTrim "|> translator: (") "|> translator:" = true) ∧
      markerLang (strTrim "|> translator: (") = "" ∧
      extractLoop false ["|> translator: (", "x"] = extractLoop false ["x"] :=
  ⟨by decide, by decide,
    c8_empty_language_skipped false "|> translator: (" ["x"] (by decide)
      (by decide)⟩

/-- C9: a trimmed line starting with `|> translator:` that contains no `(`
at all still opens a depth-1 capture, and the entire text after the first
colon (trimmed) becomes the language name. -/
theorem c9_marker_without_paren (v : Bool) (l : String) (rest : List String)
    (h1 : strStartsWith (strTrim l) "|> translator:" = true)
    (h2 : '(' ∉ (strTrim l).data)
    (h3 : strTrim ((splitn2 (strTrim l) ':').getD 1 "") ≠ "") :
    markerLang (strTrim l) = strTrim ((splitn2 (strTrim l) ':').getD 1 "") ∧
    extractLoop v (l :: rest) =
      (if (captureLoop "" 1 rest).2.1 = 0 then
        ((markerLang (strTrim l), strTrim (captureLoop "" 1 rest).1) ::
            (extractLoop v (captureLoop "" 1 rest).2.2).1,
         (if v then ["Extracted " ++ markerLang (strTrim l) ++ " block"] else []) ++
            (extractLoop v (captureLoop "" 1 rest).2.2).2)
       else
        ((extractLoop v (captureLoop "" 1 rest).2.2).1,
         (if v then ["Unclosed block for " ++ markerLang (strTrim l)] else []) ++
            (extractLoop v (captureLoop "" 1 rest).2.2).2)) := by
  have hm := markerLang_no_paren (strTrim l) h2
  have hlen := marker_splitn2_length (strTrim l) h1
  have hne : markerLang (strTrim l) ≠ "" := by
    rw [hm]
    exact h3
  refine ⟨hm, ?_⟩
  by_cases h4 : (captureLoop "" 1 rest).2.1 = 0
  · simp [extractLoop, h1, hlen, hne, h4]
  · simp [extractLoop, h1, hlen, hne, h4]

theorem c9_marker_without_paren_witness :
    (strStartsWith (strTrim "|> translator: python") "|> translator:" = true) ∧
      ('(' ∉ (strTrim "|> translator: python").data) ∧
      strTrim ((splitn2 (strTrim "|> translator: python") ':').getD 1 "") ≠ "" ∧
      markerLang (strTrim "|> translator: python") =
        strTrim ((splitn2 (strTrim "|> translator: python") ':').getD 1 "") :=
  ⟨by decide, by decide, by decide,
    (c9_marker_without_paren false "|> translator: python" [")"] (by decide)
      (by decide) (by decide)).1⟩

/-- C10: the scan terminates on every finite input: one pass of the inner
capture loop, entered at positive depth from a marker line, consumes at
least one line, so the number of remaining lines strictly decreases at
every step of the outer loop and the recursion is well founded. -/
theorem c10_capture_consumes (code : String) (d : Int) (l : String)
    (rest : List String) (h : 0 < d) :
    ((captureLoop code d (l :: rest)).2.2).length < (l :: rest).length := by
  simp only [captureLoop, if_pos h, List.length_cons]
  exact Nat.lt_succ_of_le (captureLoop_leftover_length _ _ _)

theorem c10_capture_consumes_witness :
    (0 : Int) < 1 ∧
      ((captureLoop "" 1 ["print", ")"]).2.2).length <
        (["print", ")"] : List String).length :=
  ⟨by decide, c10_capture_consumes "" 1 "print" [")"] (by decide)⟩

end Translator
